import Mathlib

/-!
Shallow embedding of the `mazes` repository's graph core:
`src/src/matrix.rs` (`AdjacencyMatrix`) and `src/graph/src/graph.rs`
(`MatrixCell`, `Graph` with a directed/undirected mode).

Modelling conventions: Rust `Vec<T>` is a `List`, `usize` is `Nat`
(the claims never involve overflow), and fallible slice indexing
(`data[i]`, which panics when out of bounds) is `Option`-returning
access, with `none` standing for the panic.
-/

/-- Cell of the adjacency matrix, `MatrixCell` from `graph.rs`:
`Empty | Edge(E)`; `Empty` is the `Default`. -/
inductive MatrixCell (E : Type) where
  | Empty : MatrixCell E
  | Edge : E → MatrixCell E
deriving DecidableEq

/-- The packed triangular matrix from `matrix.rs`: a flat store `data`
plus a band counter `size` (`size` counts appended bands; the source's
`remove` never decrements it). -/
structure AdjacencyMatrix (α : Type) where
  data : List α
  size : Nat
deriving DecidableEq

namespace AdjacencyMatrix

/-- `AdjacencyMatrix::new`. -/
def new {α : Type} : AdjacencyMatrix α := ⟨[], 0⟩

/-- `chunk_len` from the source: band `chunk` holds `chunk * 2 + 1` slots. -/
def chunk_len (chunk : Nat) : Nat := chunk * 2 + 1

/-- `chunk_offset` from the source (`chunk.pow(2)`): band `chunk` starts at
flat index `chunk * chunk`. -/
def chunk_offset (chunk : Nat) : Nat := chunk * chunk

/-- `push_default`: extend `data` by one band of `chunk_len size` copies of
the default element and bump `size`. The Rust code obtains the element via
`T::default()`; here the default value is passed explicitly. -/
def push_default {α : Type} (m : AdjacencyMatrix α) (d : α) : AdjacencyMatrix α :=
  ⟨m.data ++ List.replicate (chunk_len m.size) d, m.size + 1⟩

/-- The flat position used by `get`/`get_mut`/`set` in the source:
`let (chunk, position) = if x > y { (x, y) } else { (y, x + y) };`
then `chunk_offset(chunk) + position`. -/
def flat_index (x y : Nat) : Nat :=
  let cp := if x > y then (x, y) else (y, x + y)
  chunk_offset cp.1 + cp.2

/-- `get`: the source returns `&self.data[offset + position]`, panicking
when that flat position is out of bounds; `none` models the panic. -/
def get {α : Type} (m : AdjacencyMatrix α) (x y : Nat) : Option α :=
  m.data[flat_index x y]?

/-- `set` writes through `get_mut` at the same flat position. The source
panics when the position is out of bounds, while `List.set` leaves the
list unchanged there; the bounds theorems below show only the in-bounds
case is reachable through the graph API. -/
def set {α : Type} (m : AdjacencyMatrix α) (x y : Nat) (v : α) : AdjacencyMatrix α :=
  ⟨m.data.set (flat_index x y) v, m.size⟩

/-- Band (chunk) of a flat index. The source's `remove` scan and its
iterator compute this incrementally: the running chunk is bumped exactly
when the flat index reaches the next band boundary
`chunk_offset (chunk + 1)`; `chunk_of` is that same incremental
computation, written as a recursion over the flat index. -/
def chunk_of : Nat → Nat
  | 0 => 0
  | i + 1 =>
    let c := chunk_of i
    if i + 1 = chunk_offset (c + 1) then c + 1 else c

/-- Position of a flat index inside its band (`i - *offset` in the
source's scan state). -/
def inner_of (i : Nat) : Nat := i - chunk_offset (chunk_of i)

/-- The `filter_map` arms of `remove` on the (chunk, inner) decomposition
of a flat index: drop the whole band `r`, and in every higher band the
slots at inner positions `r` and `2 * r + 1`. The arms appear in the
source's order. -/
def keep_slot (r i : Nat) : Bool :=
  let ch := chunk_of i
  let inn := inner_of i
  if ch = r then false
  else if inn = r ∧ ch > r then false
  else if inn = 2 * r + 1 ∧ ch > r then false
  else true

/-- `remove` from the source: drain `data`, recover each element's
(chunk, inner) position from its flat index, filter with the three arms
above and keep the survivors in order. The source's
`assert!(remove < self.size)` is a precondition established at every call
site below; `size` is left untouched, exactly as in the source. -/
def remove {α : Type} (m : AdjacencyMatrix α) (r : Nat) : AdjacencyMatrix α :=
  ⟨((List.range m.data.length).zip m.data).filterMap
      (fun p => if keep_slot r p.1 then some p.2 else none),
    m.size⟩

/-- One item of `AdjacencyMatrixIterator`: the element at flat index `i`
is reported at `(x, y) = (chunk, inner)` when `chunk > inner`, else at
`(inner - chunk, chunk)`. -/
def iter_entry {α : Type} (i : Nat) (el : α) : Nat × Nat × α :=
  let ch := chunk_of i
  let inn := inner_of i
  if ch > inn then (ch, inn, el) else (inn - ch, ch, el)

/-- Denotation of `AdjacencyMatrixIterator`: the finite list of
`(x, y, element)` triples it yields, in flat (band) order. -/
def iter {α : Type} (m : AdjacencyMatrix α) : List (Nat × Nat × α) :=
  ((List.range m.data.length).zip m.data).map (fun p => iter_entry p.1 p.2)

end AdjacencyMatrix

/-- `Graph` from `graph.rs`: node payloads, edge matrix, and the mode flag
fixed at construction. -/
structure Graph (N E : Type) where
  edges : AdjacencyMatrix (MatrixCell E)
  nodes : List N
  directed : Bool
deriving DecidableEq

namespace Graph

/-- `Graph::new_directed`. -/
def new_directed {N E : Type} : Graph N E := ⟨AdjacencyMatrix.new, [], true⟩

/-- `Graph::new_undirected`. -/
def new_undirected {N E : Type} : Graph N E := ⟨AdjacencyMatrix.new, [], false⟩

/-- `node_count` is the length of the node sequence. -/
def node_count {N E : Type} (g : Graph N E) : Nat := g.nodes.length

/-- `set_node` writes `self.nodes[index] = value`; the source panics when
`index` is out of range, while `List.set` leaves the list unchanged. -/
def set_node {N E : Type} (g : Graph N E) (index : Nat) (value : N) : Graph N E :=
  { g with nodes := g.nodes.set index value }

/-- `add_node`: push one default band onto the matrix, then push the node
payload. The Rust function returns `()`. -/
def add_node {N E : Type} (g : Graph N E) (value : N) : Graph N E :=
  { g with
    edges := g.edges.push_default MatrixCell.Empty,
    nodes := g.nodes ++ [value] }

/-- `add_node` with its returned value (Rust's `()`) recorded explicitly. -/
def add_node_ret {N E : Type} (g : Graph N E) (value : N) : Graph N E × Unit :=
  (g.add_node value, ())

/-- `node`: the `NodeRef` content `(value, index)`, or `none` when the
index is at or above `node_count`. -/
def node {N E : Type} (g : Graph N E) (index : Nat) : Option (N × Nat) :=
  if g.node_count > index then (g.nodes[index]?).map (fun v => (v, index)) else none

/-- `remove_node`: cascade into the matrix, then remove the payload
(`Vec::remove` panics out of range; `List.eraseIdx` is unchanged there). -/
def remove_node {N E : Type} (g : Graph N E) (index : Nat) : Graph N E :=
  { g with edges := g.edges.remove index, nodes := g.nodes.eraseIdx index }

/-- The index-pair canonicalization written out at the top of `set_edge`,
`remove_edge` and `edge`: in undirected mode a smaller-first pair is
swapped to larger-first; otherwise the pair passes through. -/
def canon_pair {N E : Type} (g : Graph N E) (index_a index_b : Nat) : Nat × Nat :=
  if g.directed = false ∧ index_a < index_b then (index_b, index_a) else (index_a, index_b)

/-- `set_edge`: canonicalize and store `Edge(value)`. -/
def set_edge {N E : Type} (g : Graph N E) (index_a index_b : Nat) (value : E) : Graph N E :=
  let p := canon_pair g index_a index_b
  { g with edges := g.edges.set p.1 p.2 (MatrixCell.Edge value) }

/-- `remove_edge`: canonicalize and store `Empty`. -/
def remove_edge {N E : Type} (g : Graph N E) (index_a index_b : Nat) : Graph N E :=
  let p := canon_pair g index_a index_b
  { g with edges := g.edges.set p.1 p.2 MatrixCell.Empty }

/-- `edge`: the `EdgeRef` content `(value, index_a, index_b)` with the
canonicalized indices, as stored by the source. The inner `none` arm (a
matrix access outside `data`) models the Rust panic; the safety theorems
below show it is unreachable for API-built graphs. -/
def edge {N E : Type} (g : Graph N E) (index_a index_b : Nat) : Option (E × Nat × Nat) :=
  let p := canon_pair g index_a index_b
  if g.node_count > p.1 ∧ g.node_count > p.2 then
    match g.edges.get p.1 p.2 with
    | some (MatrixCell.Edge e) => some (e, p.1, p.2)
    | some MatrixCell.Empty => none
    | none => none
  else none

/-- Edge payload of one matrix cell (the `is_edge` filter combined with
`unwrap_ref`). -/
def cell_value {E : Type} : MatrixCell E → Option E
  | MatrixCell.Empty => none
  | MatrixCell.Edge e => some e

/-- One step of `EdgeIterator`: keep `Edge` cells, reporting
`(value, index_a, index_b)`. -/
def edge_entry {E : Type} : Nat × Nat × MatrixCell E → Option (E × Nat × Nat)
  | (x, y, MatrixCell.Edge e) => some (e, x, y)
  | (_, _, MatrixCell.Empty) => none

/-- Denotation of `EdgeIterator`: matrix iteration filtered to `Edge`
cells, in the matrix's flat band order. -/
def edges_list {N E : Type} (g : Graph N E) : List (E × Nat × Nat) :=
  g.edges.iter.filterMap edge_entry

/-- Graph states reachable through the public API, each mutating
operation taken with the bounds precondition its contract documents. -/
inductive Reachable {N E : Type} : Graph N E → Prop where
  | new_directed : Reachable Graph.new_directed
  | new_undirected : Reachable Graph.new_undirected
  | add_node {g : Graph N E} (v : N) : Reachable g → Reachable (g.add_node v)
  | set_node {g : Graph N E} (i : Nat) (v : N) :
      Reachable g → i < g.node_count → Reachable (g.set_node i v)
  | remove_node {g : Graph N E} (i : Nat) :
      Reachable g → i < g.node_count → Reachable (g.remove_node i)
  | set_edge {g : Graph N E} (a b : Nat) (v : E) :
      Reachable g → a < g.node_count → b < g.node_count → Reachable (g.set_edge a b v)
  | remove_edge {g : Graph N E} (a b : Nat) :
      Reachable g → a < g.node_count → b < g.node_count → Reachable (g.remove_edge a b)

end Graph

/-- The matrix of the source's `create_set` unit test: three bands, cell
`(x, y)` holding the number `10 * x + y`. -/
def test_matrix3 : AdjacencyMatrix Nat :=
  AdjacencyMatrix.new
    |>.push_default 0 |>.push_default 0 |>.push_default 0
    |>.set 0 0 0 |>.set 0 1 1 |>.set 0 2 2
    |>.set 1 0 10 |>.set 1 1 11 |>.set 1 2 12
    |>.set 2 0 20 |>.set 2 1 21 |>.set 2 2 22

/-- The source's `directed_test_graph` fixture: nodes A, B, C and directed
edges (0,1)=AB, (1,0)=BA, (0,2)=AC. -/
def directed_test_graph : Graph String String :=
  Graph.new_directed
    |>.add_node "A" |>.add_node "B" |>.add_node "C"
    |>.set_edge 0 1 "AB" |>.set_edge 1 0 "BA" |>.set_edge 0 2 "AC"

/-- A small undirected fixture: nodes A, B and the single edge {0,1}. -/
def undirected_pair_graph : Graph String String :=
  Graph.new_undirected
    |>.add_node "A" |>.add_node "B"
    |>.set_edge 0 1 "AB"

/-- A fresh matrix after `n` node appends: `push_default` iterated `n`
times from `new`. -/
def push_default_iter {α : Type} (d : α) : Nat → AdjacencyMatrix α
  | 0 => AdjacencyMatrix.new
  | n + 1 => (push_default_iter d n).push_default d

/-- Helper facts about the band decomposition of flat indices. -/
theorem chunk_of_bounds (i : Nat) :
    AdjacencyMatrix.chunk_offset (AdjacencyMatrix.chunk_of i) ≤ i ∧
      i < AdjacencyMatrix.chunk_offset (AdjacencyMatrix.chunk_of i + 1) := by
  induction i with
  | zero => constructor <;> simp [AdjacencyMatrix.chunk_of, AdjacencyMatrix.chunk_offset]
  | succ n ih =>
    rcases ih with ⟨h1, h2⟩
    simp only [AdjacencyMatrix.chunk_of]
    by_cases h : n + 1 = AdjacencyMatrix.chunk_offset (AdjacencyMatrix.chunk_of n + 1)
    · rw [if_pos h]
      have hstep : AdjacencyMatrix.chunk_offset (AdjacencyMatrix.chunk_of n + 1 + 1)
          = AdjacencyMatrix.chunk_offset (AdjacencyMatrix.chunk_of n + 1)
            + 2 * AdjacencyMatrix.chunk_of n + 3 := by
        unfold AdjacencyMatrix.chunk_offset; ring
      omega
    · rw [if_neg h]
      omega

/-- The band of `c * c + j` is `c` whenever `j` fits inside band `c`. -/
theorem chunk_of_sq_add (c j : Nat) (h : j ≤ 2 * c) :
    AdjacencyMatrix.chunk_of (c * c + j) = c := by
  obtain ⟨h1, h2⟩ := chunk_of_bounds (c * c + j)
  unfold AdjacencyMatrix.chunk_offset at h1 h2
  rcases Nat.lt_trichotomy (AdjacencyMatrix.chunk_of (c * c + j)) c with hlt | heq | hgt
  · exfalso
    have hm : (AdjacencyMatrix.chunk_of (c * c + j) + 1) * (AdjacencyMatrix.chunk_of (c * c + j) + 1)
        ≤ c * c := Nat.mul_le_mul hlt hlt
    omega
  · exact heq
  · exfalso
    have hm : (c + 1) * (c + 1) ≤ AdjacencyMatrix.chunk_of (c * c + j)
        * AdjacencyMatrix.chunk_of (c * c + j) := Nat.mul_le_mul hgt hgt
    have hexp : (c + 1) * (c + 1) = c * c + 2 * c + 1 := by ring
    omega

/-- The inner position of `c * c + j` inside band `c` is `j`. -/
theorem inner_of_sq_add (c j : Nat) (h : j ≤ 2 * c) :
    AdjacencyMatrix.inner_of (c * c + j) = j := by
  unfold AdjacencyMatrix.inner_of
  rw [chunk_of_sq_add c j h]
  unfold AdjacencyMatrix.chunk_offset
  omega

/-- Below the removed band every slot is kept. -/
theorem keep_slot_of_lt (r c j : Nat) (hc : c < r) (hj : j ≤ 2 * c) :
    AdjacencyMatrix.keep_slot r (c * c + j) = true := by
  simp only [AdjacencyMatrix.keep_slot, chunk_of_sq_add c j hj, inner_of_sq_add c j hj]
  have h1 : ¬ c = r := by omega
  have h2 : ¬ c > r := by omega
  simp [h1, h2]

/-- The removed band is dropped whole. -/
theorem keep_slot_of_self (r j : Nat) (hj : j ≤ 2 * r) :
    AdjacencyMatrix.keep_slot r (r * r + j) = false := by
  simp [AdjacencyMatrix.keep_slot, chunk_of_sq_add r j hj, inner_of_sq_add r j hj]

/-- Above the removed band, exactly the inner positions `r` and `2r + 1`
are dropped. -/
theorem keep_slot_of_gt (r c j : Nat) (hc : r < c) (hj : j ≤ 2 * c) :
    AdjacencyMatrix.keep_slot r (c * c + j)
      = (decide ¬(j = r) && decide ¬(j = 2 * r + 1)) := by
  simp only [AdjacencyMatrix.keep_slot, chunk_of_sq_add c j hj, inner_of_sq_add c j hj]
  have h1 : ¬ c = r := by omega
  by_cases hjr : j = r
  · simp [h1, hjr, hc]
  · by_cases hj2 : j = 2 * r + 1
    · simp [h1, hjr, hj2, hc]
    · simp [h1, hjr, hj2, hc]

/-- The survivors of an index-driven `filterMap` over a zipped enumeration
are counted by filtering the index list. -/
theorem filterMap_zip_length {α : Type} (P : Nat → Bool) :
    ∀ (idx : List Nat) (l : List α), idx.length = l.length →
      ((idx.zip l).filterMap (fun p => if P p.1 then some p.2 else none)).length
        = (idx.filter P).length := by
  intro idx
  induction idx with
  | nil => intro l h; simp
  | cons i t ih =>
    intro l h
    cases l with
    | nil => simp at h
    | cons x xs =>
      have ht : t.length = xs.length := by simpa using h
      by_cases hp : P i = true
      · simp [List.filterMap_cons, List.filter_cons, hp, ih xs ht]
      · simp [List.filterMap_cons, List.filter_cons, hp, ih xs ht]

/-- The length of `remove`'s rebuilt store equals the number of flat
indices its filter keeps. -/
theorem remove_data_length {α : Type} (m : AdjacencyMatrix α) (r : Nat) :
    (m.remove r).data.length
      = ((List.range m.data.length).filter (AdjacencyMatrix.keep_slot r)).length := by
  unfold AdjacencyMatrix.remove
  exact filterMap_zip_length (AdjacencyMatrix.keep_slot r) _ _ (by simp)

/-- Filtering one occurring value out of a duplicate-free list drops its
length by exactly one. -/
theorem length_filter_ne {l : List Nat} {a : Nat} (hnd : l.Nodup) (ha : a ∈ l) :
    (l.filter (fun j => decide ¬(j = a))).length + 1 = l.length := by
  induction l with
  | nil => cases ha
  | cons b t ih =>
    rcases List.nodup_cons.mp hnd with ⟨hbt, hnt⟩
    by_cases hba : b = a
    · subst hba
      have hfix : t.filter (fun j => decide ¬(j = b)) = t := by
        apply List.filter_eq_self.mpr
        intro x hx
        simp only [decide_eq_true_eq]
        intro hxa
        exact hbt (hxa ▸ hx)
      rw [List.filter_cons]
      simp [hfix]
      intro x hx hxb
      exact hbt (hxb ▸ hx)
    · have hat : a ∈ t := by
        rcases List.mem_cons.mp ha with h | h
        · exact absurd h.symm hba
        · exact h
      have hkeep : (fun j => decide ¬(j = a)) b = true := by simp [hba]
      simp only [List.filter_cons, hkeep, if_pos, List.length_cons]
      have := ih hnt hat
      omega

/-- A band strictly below the removed index keeps all `2c + 1` slots. -/
theorem chunk_filter_lt (r c : Nat) (h : c < r) :
    ((List.range (2 * c + 1)).filter
      (fun j => AdjacencyMatrix.keep_slot r (c * c + j))).length = 2 * c + 1 := by
  have hall : (List.range (2 * c + 1)).filter
      (fun j => AdjacencyMatrix.keep_slot r (c * c + j)) = List.range (2 * c + 1) := by
    apply List.filter_eq_self.mpr
    intro j hj
    exact keep_slot_of_lt r c j h (by have := List.mem_range.mp hj; omega)
  rw [hall, List.length_range]

/-- The removed band keeps no slot. -/
theorem chunk_filter_self (r : Nat) :
    ((List.range (2 * r + 1)).filter
      (fun j => AdjacencyMatrix.keep_slot r (r * r + j))).length = 0 := by
  have hnone : (List.range (2 * r + 1)).filter
      (fun j => AdjacencyMatrix.keep_slot r (r * r + j)) = [] := by
    apply List.filter_eq_nil_iff.mpr
    intro j hj
    simp [keep_slot_of_self r j (by have := List.mem_range.mp hj; omega)]
  rw [hnone]
  rfl

/-- A band strictly above the removed index keeps exactly `2c - 1` slots. -/
theorem chunk_filter_gt (r c : Nat) (h : r < c) :
    ((List.range (2 * c + 1)).filter
      (fun j => AdjacencyMatrix.keep_slot r (c * c + j))).length = 2 * c - 1 := by
  have hcongr : (List.range (2 * c + 1)).filter
        (fun j => AdjacencyMatrix.keep_slot r (c * c + j))
      = (List.range (2 * c + 1)).filter
        (fun j => decide ¬(j = r) && decide ¬(j = 2 * r + 1)) := by
    apply List.filter_congr
    intro j hj
    exact keep_slot_of_gt r c j h (by have := List.mem_range.mp hj; omega)
  rw [hcongr, ← List.filter_filter]
  have h1 : ((List.range (2 * c + 1)).filter
      (fun j => decide ¬(j = 2 * r + 1))).length + 1 = 2 * c + 1 := by
    have := length_filter_ne (List.nodup_range (2 * c + 1))
      (List.mem_range.mpr (show 2 * r + 1 < 2 * c + 1 by omega))
    simpa using this
  have h2 : r ∈ (List.range (2 * c + 1)).filter (fun j => decide ¬(j = 2 * r + 1)) := by
    apply List.mem_filter.mpr
    refine ⟨List.mem_range.mpr (by omega), ?_⟩
    simp only [decide_eq_true_eq]
    omega
  have h3 := length_filter_ne
    (List.Nodup.filter _ (List.nodup_range (2 * c + 1))) h2
  omega

/-- Splitting the kept-slot count of the first `c + 1` bands into the first
`c` bands plus band `c`. -/
theorem filter_sq_step (r c : Nat) :
    ((List.range ((c + 1) * (c + 1))).filter (AdjacencyMatrix.keep_slot r)).length
      = ((List.range (c * c)).filter (AdjacencyMatrix.keep_slot r)).length
        + ((List.range (2 * c + 1)).filter
            (fun j => AdjacencyMatrix.keep_slot r (c * c + j))).length := by
  have h : (c + 1) * (c + 1) = c * c + (2 * c + 1) := by ring
  rw [h, List.range_add, List.filter_append, List.length_append,
    List.filter_map, List.length_map]
  rfl

/-- Kept-slot count of the first `c` bands when the removed band lies at
or above them. -/
theorem filter_sq_le (r : Nat) :
    ∀ c, c ≤ r →
      ((List.range (c * c)).filter (AdjacencyMatrix.keep_slot r)).length = c * c := by
  intro c
  induction c with
  | zero => intro h; simp
  | succ n ih =>
    intro h
    rw [filter_sq_step, ih (by omega), chunk_filter_lt r n (by omega)]
    ring

/-- Kept-slot count of the first `c` bands when the removed band lies
strictly below them: exactly `(c - 1) ^ 2` slots survive. -/
theorem filter_sq_gt (r : Nat) :
    ∀ c, r < c →
      ((List.range (c * c)).filter (AdjacencyMatrix.keep_slot r)).length
        = (c - 1) * (c - 1) := by
  intro c
  induction c with
  | zero => intro h; omega
  | succ n ih =>
    intro h
    rw [filter_sq_step]
    rcases Nat.lt_or_ge r n with hrn | hrn
    · rw [ih hrn, chunk_filter_gt r n hrn]
      obtain ⟨k, rfl⟩ : ∃ k, n = k + 1 := ⟨n - 1, by omega⟩
      simp only [Nat.add_sub_cancel]
      have hexp : (k + 1) * (k + 1) = k * k + 2 * k + 1 := by ring
      omega
    · have hrn' : r = n := by omega
      subst hrn'
      rw [filter_sq_le r r (le_refl r), chunk_filter_self r]
      simp

/-- After removing a band index valid for `c` bands, a matrix holding at
least `c * c` slots still holds at least `(c - 1) * (c - 1)` slots. -/
theorem remove_length_ge {α : Type} (m : AdjacencyMatrix α) (c r : Nat)
    (hL : c * c ≤ m.data.length) (hrc : r < c) :
    (c - 1) * (c - 1) ≤ (m.remove r).data.length := by
  rw [remove_data_length]
  have hsub : (List.range (c * c)).Sublist (List.range m.data.length) :=
    List.range_sublist.mpr hL
  have hle := (List.Sublist.filter (AdjacencyMatrix.keep_slot r) hsub).length_le
  rw [filter_sq_gt r c hrc] at hle
  exact hle

/-- The flat position of a pair with both components below `c` lies inside
the first `c` bands. -/
theorem flat_index_lt_sq (x y c : Nat) (hx : x < c) (hy : y < c) :
    AdjacencyMatrix.flat_index x y < c * c := by
  unfold AdjacencyMatrix.flat_index AdjacencyMatrix.chunk_offset
  by_cases h : x > y
  · simp only [if_pos h]
    have h1 : (x + 1) * (x + 1) ≤ c * c := Nat.mul_le_mul hx hx
    have h2 : (x + 1) * (x + 1) = x * x + 2 * x + 1 := by ring
    omega
  · simp only [if_neg h]
    have h1 : (y + 1) * (y + 1) ≤ c * c := Nat.mul_le_mul hy hy
    have h2 : (y + 1) * (y + 1) = y * y + 2 * y + 1 := by ring
    omega

/-- The two orders of a pair land on distinct flat positions. -/
theorem flat_index_swap_ne (x y : Nat) (h : x ≠ y) :
    AdjacencyMatrix.flat_index x y ≠ AdjacencyMatrix.flat_index y x := by
  unfold AdjacencyMatrix.flat_index AdjacencyMatrix.chunk_offset
  rcases Nat.lt_or_ge x y with hlt | hge
  · have h1 : ¬ x > y := by omega
    simp only [if_neg h1, if_pos hlt]
    omega
  · have hgt : x > y := by omega
    have h2 : ¬ y > x := by omega
    simp only [if_pos hgt, if_neg h2]
    omega

/-- `canon_pair` returns the pair itself or its swap. -/
theorem canon_pair_mem {N E : Type} (g : Graph N E) (a b : Nat) :
    Graph.canon_pair g a b = (a, b) ∨ Graph.canon_pair g a b = (b, a) := by
  unfold Graph.canon_pair
  split
  · right; rfl
  · left; rfl

/-- Canonicalization preserves the bounds of the pair's components. -/
theorem canon_pair_lt {N E : Type} (g : Graph N E) (a b : Nat)
    (ha : a < g.node_count) (hb : b < g.node_count) :
    (Graph.canon_pair g a b).1 < g.node_count ∧
      (Graph.canon_pair g a b).2 < g.node_count := by
  rcases canon_pair_mem g a b with h | h <;> rw [h] <;> exact ⟨by assumption, by assumption⟩

/-- In directed mode `canon_pair` is the identity. -/
theorem canon_pair_directed {N E : Type} (g : Graph N E) (hd : g.directed = true)
    (a b : Nat) : Graph.canon_pair g a b = (a, b) := by
  unfold Graph.canon_pair
  rw [hd]
  simp

/-- An in-bounds matrix access yields a value. -/
theorem get_isSome_of_lt {α : Type} (m : AdjacencyMatrix α) (x y : Nat)
    (h : AdjacencyMatrix.flat_index x y < m.data.length) :
    (m.get x y).isSome = true := by
  unfold AdjacencyMatrix.get
  rw [List.getElem?_eq_getElem h]
  rfl

/-- Reading back an in-bounds `set` at the same pair. -/
theorem get_set_self {α : Type} (m : AdjacencyMatrix α) (x y : Nat) (v : α)
    (h : AdjacencyMatrix.flat_index x y < m.data.length) :
    (m.set x y v).get x y = some v := by
  unfold AdjacencyMatrix.get AdjacencyMatrix.set
  exact List.getElem?_set_self h

/-- A `set` at a different flat position does not disturb a read. -/
theorem get_set_ne {α : Type} (m : AdjacencyMatrix α) (x y x' y' : Nat) (v : α)
    (h : AdjacencyMatrix.flat_index x y ≠ AdjacencyMatrix.flat_index x' y') :
    (m.set x y v).get x' y' = m.get x' y' := by
  unfold AdjacencyMatrix.get AdjacencyMatrix.set
  exact List.getElem?_set_ne h

/-- The central API invariant: a reachable graph's node count never
exceeds the matrix's band counter, and the matrix store always holds at
least `node_count ^ 2` slots. -/
theorem reachable_inv {N E : Type} {g : Graph N E} (h : Graph.Reachable g) :
    g.node_count ≤ g.edges.size ∧
      g.node_count * g.node_count ≤ g.edges.data.length := by
  induction h with
  | new_directed =>
    simp [Graph.new_directed, Graph.node_count, AdjacencyMatrix.new]
  | new_undirected =>
    simp [Graph.new_undirected, Graph.node_count, AdjacencyMatrix.new]
  | add_node v hr ih =>
    rcases ih with ⟨ih1, ih2⟩
    unfold Graph.add_node Graph.node_count AdjacencyMatrix.push_default
      AdjacencyMatrix.chunk_len at *
    simp only [List.length_append, List.length_replicate, List.length_cons,
      List.length_nil] at *
    constructor
    · omega
    · nlinarith
  | set_node i v hr hi ih =>
    simpa [Graph.set_node, Graph.node_count] using ih
  | remove_node i hr hi ih =>
    rcases ih with ⟨ih1, ih2⟩
    rename_i g'
    have hlen : (g'.remove_node i).node_count = g'.node_count - 1 := by
      unfold Graph.remove_node Graph.node_count
      simp only [List.length_eraseIdx]
      have hi' : i < g'.nodes.length := hi
      rw [if_pos hi']
    constructor
    · unfold Graph.remove_node at *
      simp only [AdjacencyMatrix.remove] at *
      unfold Graph.node_count at *
      simp only [List.length_eraseIdx] at *
      rw [if_pos (show i < g'.nodes.length from hi)]
      omega
    · rw [hlen]
      have := remove_length_ge g'.edges g'.node_count i ih2 hi
      exact this
  | set_edge a b v hr ha hb ih =>
    rcases ih with ⟨ih1, ih2⟩
    constructor
    · simpa [Graph.set_edge, Graph.node_count] using ih1
    · simpa [Graph.set_edge, Graph.node_count, AdjacencyMatrix.set] using ih2
  | remove_edge a b hr ha hb ih =>
    rcases ih with ⟨ih1, ih2⟩
    constructor
    · simpa [Graph.remove_edge, Graph.node_count] using ih1
    · simpa [Graph.remove_edge, Graph.node_count, AdjacencyMatrix.set] using ih2

/-- The values of the decorated, filtered enumeration are exactly the
`Edge` payloads of the flat store, in flat order. -/
theorem edges_chain {E : Type} : ∀ (idx : List Nat) (l : List (MatrixCell E)),
    idx.length = l.length →
    (((idx.zip l).map (fun p => AdjacencyMatrix.iter_entry p.1 p.2)).filterMap
        Graph.edge_entry).map (fun t => t.1)
      = l.filterMap Graph.cell_value := by
  intro idx
  induction idx with
  | nil =>
    intro l h
    cases l with
    | nil => simp
    | cons x xs => simp at h
  | cons i t ih =>
    intro l h
    cases l with
    | nil => simp at h
    | cons x xs =>
      have ht : t.length = xs.length := by simpa using h
      cases x with
      | Empty =>
        have he : Graph.edge_entry (AdjacencyMatrix.iter_entry i MatrixCell.Empty)
            = (none : Option (E × Nat × Nat)) := by
          simp only [AdjacencyMatrix.iter_entry]
          split <;> rfl
        simp only [List.zip_cons_cons, List.map_cons, List.filterMap_cons, he,
          Graph.cell_value]
        exact ih xs ht
      | Edge e =>
        have he : ∃ x0 y0 : Nat,
            Graph.edge_entry (AdjacencyMatrix.iter_entry i (MatrixCell.Edge e))
              = some (e, x0, y0) := by
          simp only [AdjacencyMatrix.iter_entry]
          split
          · exact ⟨_, _, rfl⟩
          · exact ⟨_, _, rfl⟩
        obtain ⟨x0, y0, he⟩ := he
        simp only [List.zip_cons_cons, List.map_cons, List.filterMap_cons, he,
          Graph.cell_value]
        rw [ih xs ht]

/-- The band counter of an `n`-fold append equals `n`. -/
theorem push_iter_size {α : Type} (d : α) (n : Nat) :
    (push_default_iter d n).size = n := by
  induction n with
  | zero => rfl
  | succ k ih => simp [push_default_iter, AdjacencyMatrix.push_default, ih]

/-- The directed fixture is built through the public API. -/
theorem reachable_directed_test : Graph.Reachable directed_test_graph := by
  unfold directed_test_graph
  exact Graph.Reachable.set_edge 0 2 "AC"
    (Graph.Reachable.set_edge 1 0 "BA"
      (Graph.Reachable.set_edge 0 1 "AB"
        (Graph.Reachable.add_node "C"
          (Graph.Reachable.add_node "B"
            (Graph.Reachable.add_node "A" Graph.Reachable.new_directed)))
        (by decide) (by decide))
      (by decide) (by decide))
    (by decide) (by decide)

/-- The undirected fixture is built through the public API. -/
theorem reachable_und_pair : Graph.Reachable undirected_pair_graph := by
  unfold undirected_pair_graph
  exact Graph.Reachable.set_edge 0 1 "AB"
    (Graph.Reachable.add_node "B"
      (Graph.Reachable.add_node "A" Graph.Reachable.new_undirected))
    (by decide) (by decide)

/-- Setting an edge and reading the same pair back, for a graph whose
store covers `node_count ^ 2` slots. -/
theorem edge_set_edge_same {N E : Type} (g : Graph N E) (a b : Nat) (v : E)
    (ha : a < g.node_count) (hb : b < g.node_count)
    (hL : g.node_count * g.node_count ≤ g.edges.data.length) :
    (g.set_edge a b v).edge a b
      = some (v, (Graph.canon_pair g a b).1, (Graph.canon_pair g a b).2) := by
  obtain ⟨hp1, hp2⟩ := canon_pair_lt g a b ha hb
  have hidx : AdjacencyMatrix.flat_index (Graph.canon_pair g a b).1
      (Graph.canon_pair g a b).2 < g.edges.data.length :=
    lt_of_lt_of_le (flat_index_lt_sq _ _ _ hp1 hp2) hL
  have hcp : Graph.canon_pair (g.set_edge a b v) a b = Graph.canon_pair g a b := rfl
  have hnc : (g.set_edge a b v).node_count = g.node_count := rfl
  have hget : (g.set_edge a b v).edges.get (Graph.canon_pair g a b).1
      (Graph.canon_pair g a b).2 = some (MatrixCell.Edge v) :=
    get_set_self g.edges (Graph.canon_pair g a b).1 (Graph.canon_pair g a b).2
      (MatrixCell.Edge v) hidx
  simp only [Graph.edge, hcp, hnc, hget]
  rw [if_pos ⟨hp1, hp2⟩]

/-- C1: the removal renumbering contract fails on the code. On the
source's own `create_set` matrix (three bands, cell `(x, y)` holding
`10 * x + y`), after `remove 0` the claim requires `get 1 0` to return the
cell that before held the shifted pair `(2, 1)` (value 21); the code
instead leaves there the old cell of pair `(0, 2)` (value 2), because the
filter drops inner position `2 * r + 1` of every higher band instead of
position `r + chunk`. -/
theorem matrix_remove_renumber_bug :
    (test_matrix3.remove 0).get 1 0 = some 2 ∧
    test_matrix3.get 2 1 = some 21 ∧
    test_matrix3.get 0 2 = some 2 ∧
    (test_matrix3.remove 0).get 1 0 ≠ test_matrix3.get 2 1 ∧
    (test_matrix3.remove 0).data = [11, 2, 12, 22] := by decide

/-- C2: on the directed example [A, B, C] with edges (0,1)=AB, (1,0)=BA,
(0,2)=AC, removing node 1 renumbers node C to index 1 and edge (0,2) to
(0,1); the removed node's edges disappear. -/
theorem graph_remove_node_renumber_example :
    (directed_test_graph.remove_node 1).node 0 = some ("A", 0) ∧
    (directed_test_graph.remove_node 1).node 1 = some ("C", 1) ∧
    (directed_test_graph.remove_node 1).node 2 = none ∧
    ((directed_test_graph.remove_node 1).edge 0 1).map (fun e => e.1) = some "AC" ∧
    (directed_test_graph.remove_node 1).edge 1 0 = none ∧
    (directed_test_graph.remove_node 1).edge 0 2 = none := by decide

/-- C3: in undirected mode the two orders of a pair of distinct valid
indices canonicalize to the same slot, so `edge` returns identical
results for both orders. -/
theorem undirected_edge_symmetric {N E : Type} (g : Graph N E)
    (hund : g.directed = false) (p q : Nat) (hpq : p ≠ q)
    (hp : p < g.node_count) (hq : q < g.node_count) :
    g.edge p q = g.edge q p := by
  have hc : Graph.canon_pair g p q = Graph.canon_pair g q p := by
    unfold Graph.canon_pair
    rcases Nat.lt_trichotomy p q with h | h | h
    · have hn : ¬(g.directed = false ∧ q < p) := by rintro ⟨_, hqp⟩; omega
      rw [if_pos ⟨hund, h⟩, if_neg hn]
    · exact absurd h hpq
    · have hn : ¬(g.directed = false ∧ p < q) := by rintro ⟨_, hpq2⟩; omega
      rw [if_neg hn, if_pos ⟨hund, h⟩]
  simp only [Graph.edge, hc]

/-- C3 witness: the undirected fixture at the pair (0, 1). -/
theorem undirected_edge_symmetric_witness :
    (undirected_pair_graph.directed = false ∧ (0 : Nat) ≠ 1 ∧
        0 < undirected_pair_graph.node_count ∧ 1 < undirected_pair_graph.node_count) ∧
      undirected_pair_graph.edge 0 1 = undirected_pair_graph.edge 1 0 :=
  ⟨⟨rfl, by decide, by decide, by decide⟩,
    undirected_edge_symmetric undirected_pair_graph rfl 0 1 (by decide)
      (by decide) (by decide)⟩

/-- C4: in directed mode the two orders of a pair of distinct valid
indices address distinct slots; writing (p, q) then (q, p) leaves both
values readable independently. -/
theorem directed_edge_independent {N E : Type} (g : Graph N E)
    (hg : Graph.Reachable g) (hd : g.directed = true) (p q : Nat) (hpq : p ≠ q)
    (hp : p < g.node_count) (hq : q < g.node_count) (v1 v2 : E) :
    ((g.set_edge p q v1).set_edge q p v2).edge p q = some (v1, p, q) ∧
    ((g.set_edge p q v1).set_edge q p v2).edge q p = some (v2, q, p) := by
  obtain ⟨hs, hL⟩ := reachable_inv hg
  have hcpq : Graph.canon_pair g p q = (p, q) := canon_pair_directed g hd p q
  have h1 : Graph.canon_pair (g.set_edge p q v1) q p = (q, p) :=
    canon_pair_directed (g.set_edge p q v1) hd q p
  have h2 : Graph.canon_pair ((g.set_edge p q v1).set_edge q p v2) p q = (p, q) :=
    canon_pair_directed ((g.set_edge p q v1).set_edge q p v2) hd p q
  have h3 : Graph.canon_pair ((g.set_edge p q v1).set_edge q p v2) q p = (q, p) :=
    canon_pair_directed ((g.set_edge p q v1).set_edge q p v2) hd q p
  have hfpq : AdjacencyMatrix.flat_index p q < g.edges.data.length :=
    lt_of_lt_of_le (flat_index_lt_sq p q g.node_count hp hq) hL
  have hfqp : AdjacencyMatrix.flat_index q p < g.edges.data.length :=
    lt_of_lt_of_le (flat_index_lt_sq q p g.node_count hq hp) hL
  have hlen1 : (g.set_edge p q v1).edges.data.length = g.edges.data.length := by
    simp [Graph.set_edge, AdjacencyMatrix.set]
  have hget1 : ((g.set_edge p q v1).set_edge q p v2).edges.get p q
      = some (MatrixCell.Edge v1) := by
    calc ((g.set_edge p q v1).set_edge q p v2).edges.get p q
        = ((g.set_edge p q v1).edges.set
            (Graph.canon_pair (g.set_edge p q v1) q p).1
            (Graph.canon_pair (g.set_edge p q v1) q p).2
            (MatrixCell.Edge v2)).get p q := rfl
      _ = ((g.set_edge p q v1).edges.set q p (MatrixCell.Edge v2)).get p q := by
          rw [h1]
      _ = (g.set_edge p q v1).edges.get p q :=
          get_set_ne _ q p p q _ (flat_index_swap_ne q p (Ne.symm hpq))
      _ = (g.edges.set (Graph.canon_pair g p q).1 (Graph.canon_pair g p q).2
            (MatrixCell.Edge v1)).get p q := rfl
      _ = (g.edges.set p q (MatrixCell.Edge v1)).get p q := by rw [hcpq]
      _ = some (MatrixCell.Edge v1) := get_set_self g.edges p q _ hfpq
  have hget2 : ((g.set_edge p q v1).set_edge q p v2).edges.get q p
      = some (MatrixCell.Edge v2) := by
    calc ((g.set_edge p q v1).set_edge q p v2).edges.get q p
        = ((g.set_edge p q v1).edges.set
            (Graph.canon_pair (g.set_edge p q v1) q p).1
            (Graph.canon_pair (g.set_edge p q v1) q p).2
            (MatrixCell.Edge v2)).get q p := rfl
      _ = ((g.set_edge p q v1).edges.set q p (MatrixCell.Edge v2)).get q p := by
          rw [h1]
      _ = some (MatrixCell.Edge v2) :=
          get_set_self (g.set_edge p q v1).edges q p _ (by rw [hlen1]; exact hfqp)
  constructor
  · simp only [Graph.edge, h2]
    rw [if_pos (show ((g.set_edge p q v1).set_edge q p v2).node_count > p ∧
        ((g.set_edge p q v1).set_edge q p v2).node_count > q from ⟨hp, hq⟩)]
    rw [hget1]
  · simp only [Graph.edge, h3]
    rw [if_pos (show ((g.set_edge p q v1).set_edge q p v2).node_count > q ∧
        ((g.set_edge p q v1).set_edge q p v2).node_count > p from ⟨hq, hp⟩)]
    rw [hget2]

/-- C4 witness: the directed fixture with the fresh pair (1, 2). -/
theorem directed_edge_independent_witness :
    (Graph.Reachable directed_test_graph ∧ directed_test_graph.directed = true ∧
        (1 : Nat) ≠ 2 ∧ 1 < directed_test_graph.node_count ∧
        2 < directed_test_graph.node_count) ∧
      ((directed_test_graph.set_edge 1 2 "X").set_edge 2 1 "Y").edge 1 2
          = some ("X", 1, 2) ∧
      ((directed_test_graph.set_edge 1 2 "X").set_edge 2 1 "Y").edge 2 1
          = some ("Y", 2, 1) :=
  ⟨⟨reachable_directed_test, rfl, by decide, by decide, by decide⟩,
    (directed_edge_independent directed_test_graph reachable_directed_test rfl 1 2
      (by decide) (by decide) (by decide) "X" "Y").1,
    (directed_edge_independent directed_test_graph reachable_directed_test rfl 1 2
      (by decide) (by decide) (by decide) "X" "Y").2⟩

/-- C5: on any reachable graph, setting an edge at a valid pair and
reading the same pair straight back yields the written value. -/
theorem set_edge_get_roundtrip {N E : Type} (g : Graph N E)
    (hg : Graph.Reachable g) (a b : Nat) (v : E)
    (ha : a < g.node_count) (hb : b < g.node_count) :
    ((g.set_edge a b v).edge a b).map (fun e => e.1) = some v := by
  obtain ⟨hs, hL⟩ := reachable_inv hg
  rw [edge_set_edge_same g a b v ha hb hL]
  rfl

/-- C5 witness: the directed fixture, writing Z at (2, 0). -/
theorem set_edge_get_roundtrip_witness :
    (Graph.Reachable directed_test_graph ∧ 2 < directed_test_graph.node_count ∧
        0 < directed_test_graph.node_count) ∧
      ((directed_test_graph.set_edge 2 0 "Z").edge 2 0).map (fun e => e.1)
        = some "Z" :=
  ⟨⟨reachable_directed_test, by decide, by decide⟩,
    set_edge_get_roundtrip directed_test_graph reachable_directed_test 2 0 "Z"
      (by decide) (by decide)⟩

/-- C6: edge enumeration yields exactly one entry per `Edge` cell, in the
matrix's flat band order (the values are the flat store filtered to edge
payloads), and on the directed example it yields BA, AB, AC — the band
order, not the insertion order AB, BA, AC — with count 3. -/
theorem edges_enumeration_band_order :
    (∀ (N E : Type) (g : Graph N E),
      g.edges_list.map (fun t => t.1) = g.edges.data.filterMap Graph.cell_value) ∧
    directed_test_graph.edges_list = [("BA", 1, 0), ("AB", 0, 1), ("AC", 0, 2)] ∧
    directed_test_graph.edges_list.length = 3 := by
  refine ⟨?_, by decide, by decide⟩
  intro N E g
  unfold Graph.edges_list AdjacencyMatrix.iter
  exact edges_chain (List.range g.edges.data.length) g.edges.data (by simp)

/-- C7: `node` returns nothing exactly for out-of-range indices and never
hits an out-of-bounds access; `edge` returns nothing uniformly when an
index is out of range or the addressed cell is `Empty`, and on reachable
graphs its in-range matrix access always yields a cell (no panic). -/
theorem node_edge_absence {N E : Type} (g : Graph N E) (hg : Graph.Reachable g)
    (i a b : Nat) :
    (g.node i = none ↔ g.node_count ≤ i) ∧
    (i < g.node_count → (g.nodes[i]?).isSome = true) ∧
    (¬(a < g.node_count ∧ b < g.node_count) → g.edge a b = none) ∧
    (a < g.node_count → b < g.node_count →
      (g.edges.get (Graph.canon_pair g a b).1 (Graph.canon_pair g a b).2).isSome
          = true ∧
      (g.edge a b = none ↔
        g.edges.get (Graph.canon_pair g a b).1 (Graph.canon_pair g a b).2
          = some MatrixCell.Empty)) := by
  obtain ⟨hs, hL⟩ := reachable_inv hg
  have hiff : ((Graph.canon_pair g a b).1 < g.node_count ∧
      (Graph.canon_pair g a b).2 < g.node_count) ↔
      (a < g.node_count ∧ b < g.node_count) := by
    rcases canon_pair_mem g a b with hc | hc
    · rw [hc]
    · rw [hc]; exact and_comm
  refine ⟨?_, ?_, ?_, ?_⟩
  · unfold Graph.node
    by_cases hi : g.node_count > i
    · rw [if_pos hi]
      have hsome : (g.nodes[i]?).isSome = true := by
        rw [List.getElem?_eq_getElem hi]; rfl
      constructor
      · intro hmap
        exfalso
        obtain ⟨w, hw⟩ := Option.isSome_iff_exists.mp hsome
        rw [hw] at hmap
        simp at hmap
      · intro hle; omega
    · rw [if_neg hi]
      simp
      omega
  · intro hi
    rw [List.getElem?_eq_getElem hi]
    rfl
  · intro hnb
    have hnotc : ¬(g.node_count > (Graph.canon_pair g a b).1 ∧
        g.node_count > (Graph.canon_pair g a b).2) :=
      fun hc => hnb (hiff.mp ⟨hc.1, hc.2⟩)
    simp only [Graph.edge]
    rw [if_neg hnotc]
  · intro ha hb
    obtain ⟨hp1, hp2⟩ := canon_pair_lt g a b ha hb
    have hidx := lt_of_lt_of_le (flat_index_lt_sq _ _ _ hp1 hp2) hL
    have hsome := get_isSome_of_lt g.edges _ _ hidx
    refine ⟨hsome, ?_⟩
    obtain ⟨cell, hcell⟩ := Option.isSome_iff_exists.mp hsome
    simp only [Graph.edge]
    rw [if_pos ⟨hp1, hp2⟩, hcell]
    cases cell with
    | Empty => simp
    | Edge e => simp

/-- C7 witness: the directed fixture at node index 5 and pair (0, 1). -/
theorem node_edge_absence_witness :
    Graph.Reachable directed_test_graph ∧
      ((directed_test_graph.node 5 = none ↔ directed_test_graph.node_count ≤ 5) ∧
      (5 < directed_test_graph.node_count →
        (directed_test_graph.nodes[5]?).isSome = true) ∧
      (¬(0 < directed_test_graph.node_count ∧ 1 < directed_test_graph.node_count) →
        directed_test_graph.edge 0 1 = none) ∧
      (0 < directed_test_graph.node_count → 1 < directed_test_graph.node_count →
        (directed_test_graph.edges.get
            (Graph.canon_pair directed_test_graph 0 1).1
            (Graph.canon_pair directed_test_graph 0 1).2).isSome = true ∧
        (directed_test_graph.edge 0 1 = none ↔
          directed_test_graph.edges.get
              (Graph.canon_pair directed_test_graph 0 1).1
              (Graph.canon_pair directed_test_graph 0 1).2
            = some MatrixCell.Empty))) :=
  ⟨reachable_directed_test,
    node_edge_absence directed_test_graph reachable_directed_test 5 0 1⟩

/-- C8: a fresh matrix after `n` appends holds exactly `n * n` slots, and
the `n`-th append extends the store by exactly one band of `2n + 1` copies
of the default element. -/
theorem push_default_slot_count {α : Type} (d : α) (n : Nat) :
    (push_default_iter d n).data.length = n * n ∧
    (push_default_iter d (n + 1)).data
      = (push_default_iter d n).data ++ List.replicate (2 * n + 1) d := by
  constructor
  · induction n with
    | zero => rfl
    | succ k ih =>
      show ((push_default_iter d k).push_default d).data.length = (k + 1) * (k + 1)
      unfold AdjacencyMatrix.push_default AdjacencyMatrix.chunk_len
      simp only [List.length_append, List.length_replicate, push_iter_size, ih]
      ring
  · show ((push_default_iter d n).push_default d).data = _
    unfold AdjacencyMatrix.push_default AdjacencyMatrix.chunk_len
    rw [push_iter_size]
    have h : n * 2 + 1 = 2 * n + 1 := by ring
    rw [h]

/-- C9 counterexample: `add_node` returns Rust's unit value, so its
return is identical for two calls whose prior node counts differ — it
cannot be the assigned dense index. -/
theorem add_node_ret_unit_cex :
    (Graph.add_node_ret (Graph.new_directed : Graph String String) "X").2
        = (Graph.add_node_ret
            ((Graph.new_directed : Graph String String).add_node "A") "X").2 ∧
      (Graph.new_directed : Graph String String).node_count
        ≠ ((Graph.new_directed : Graph String String).add_node "A").node_count := by
  constructor
  · rfl
  · decide

/-- C9 (amended): `add_node` appends the payload to the node sequence,
appends exactly one band to the matrix, and the new node's assigned dense
index equals the node count observed before the call; the function itself
returns no value. -/
theorem add_node_appends {N E : Type} (g : Graph N E) (v : N) :
    (g.add_node v).node_count = g.node_count + 1 ∧
    (g.add_node v).nodes[g.node_count]? = some v ∧
    (g.add_node v).edges.size = g.edges.size + 1 ∧
    (g.add_node v).edges.data
      = g.edges.data ++ List.replicate (AdjacencyMatrix.chunk_len g.edges.size)
          MatrixCell.Empty := by
    refine ⟨?_, ?_, rfl, rfl⟩
    · simp [Graph.add_node, Graph.node_count]
    · show (g.nodes ++ [v])[g.nodes.length]? = some v
      exact List.getElem?_concat_length g.nodes v

/-- C10: on every reachable graph, the flat position addressed for a valid
(canonicalized) pair lies strictly inside the matrix store, so edge access
never faults even though `remove` leaves `size` undecremented. -/
theorem reachable_flat_in_bounds {N E : Type} (g : Graph N E)
    (hg : Graph.Reachable g) (a b : Nat)
    (ha : a < g.node_count) (hb : b < g.node_count) :
    AdjacencyMatrix.flat_index (Graph.canon_pair g a b).1
        (Graph.canon_pair g a b).2 < g.edges.data.length ∧
      (g.edges.get (Graph.canon_pair g a b).1
        (Graph.canon_pair g a b).2).isSome = true := by
  obtain ⟨hs, hL⟩ := reachable_inv hg
  obtain ⟨hp1, hp2⟩ := canon_pair_lt g a b ha hb
  have hidx := lt_of_lt_of_le (flat_index_lt_sq _ _ _ hp1 hp2) hL
  exact ⟨hidx, get_isSome_of_lt g.edges _ _ hidx⟩

/-- C10 witness: the directed fixture at the pair (0, 1). -/
theorem reachable_flat_in_bounds_witness :
    (Graph.Reachable directed_test_graph ∧ 0 < directed_test_graph.node_count ∧
        1 < directed_test_graph.node_count) ∧
      (AdjacencyMatrix.flat_index (Graph.canon_pair directed_test_graph 0 1).1
          (Graph.canon_pair directed_test_graph 0 1).2
        < directed_test_graph.edges.data.length ∧
      (directed_test_graph.edges.get (Graph.canon_pair directed_test_graph 0 1).1
          (Graph.canon_pair directed_test_graph 0 1).2).isSome = true) :=
  ⟨⟨reachable_directed_test, by decide, by decide⟩,
    reachable_flat_in_bounds directed_test_graph reachable_directed_test 0 1
      (by decide) (by decide)⟩
